import Mathlib

/-!
Shallow embedding of `src/utils/ring_buffer.rs` (a fixed-capacity ring
buffer with a signed rotation offset) and verification of its
specification.

Rust's `Vec<T>` is modelled as `List T`, `isize` as `Int`, `usize`
indices as `Nat`.  Operations that panic in Rust (remainder by zero in
`rem_euclid`, out-of-bounds slice indexing, `rotate_left` past the
length) are modelled as returning `none`.
-/

/-- Embeds `struct RingBuffer<T> { elements: Vec<T>, current_index: isize }`. -/
structure RingBuffer (T : Type) where
  elements : List T
  current_index : Int
deriving Repr, DecidableEq

namespace RingBuffer

/-- Embeds `RingBuffer::new(size, default_value)`: `Vec::resize` on a fresh empty
vector fills it with `size` clones of `default_value`; `current_index`
starts at 0. -/
def new (size : Nat) (default_value : T) : RingBuffer T :=
  { elements := List.replicate size default_value, current_index := 0 }

/-- Embeds `RingBuffer::len`. -/
def len (rb : RingBuffer T) : Nat :=
  rb.elements.length

/-- Embeds `RingBuffer::is_empty`. -/
def is_empty (rb : RingBuffer T) : Bool :=
  rb.elements.isEmpty

/-- Embeds `RingBuffer::get_array_index`: computes
`(current_index + index).rem_euclid(len as isize) as usize`.
`isize::rem_euclid` panics when the divisor is zero, modelled as `none`. -/
def get_array_index (rb : RingBuffer T) (index : Int) : Option Nat :=
  let num : Int := (rb.elements.length : Int)
  if num = 0 then none else some (((rb.current_index + index) % num).toNat)

/-- Embeds `Index for RingBuffer`: `&self.elements[self.get_array_index(index)]`.
Slice indexing panics out of bounds, modelled by `List.get?`. -/
def index (rb : RingBuffer T) (i : Int) : Option T :=
  (rb.get_array_index i).bind (fun array_index => rb.elements.get? array_index)

/-- Embeds `IndexMut for RingBuffer` followed by an assignment through the returned
mutable reference: `self.elements[self.get_array_index(index)] = v`. -/
def index_set (rb : RingBuffer T) (i : Int) (v : T) : Option (RingBuffer T) :=
  (rb.get_array_index i).bind (fun array_index =>
    if array_index < rb.elements.length then
      some { elements := rb.elements.set array_index v,
             current_index := rb.current_index }
    else none)

/-- Embeds `RingBuffer::rotate(num)`: `self.current_index += num`. -/
def rotate (rb : RingBuffer T) (num : Int) : RingBuffer T :=
  { rb with current_index := rb.current_index + num }

/-- Embeds `slice::rotate_left(mid)`: moves the first `mid` elements to the end;
panics (modelled as `none`) when `mid > len`. -/
def rustRotateLeft (l : List α) (mid : Nat) : Option (List α) :=
  if mid ≤ l.length then some (l.drop mid ++ l.take mid) else none

/-- Embeds `Vec::resize(new_len, value)`: truncates to `new_len` when shrinking,
appends clones of `value` when growing. -/
def vecResize (l : List α) (new_len : Nat) (value : α) : List α :=
  if new_len ≤ l.length then l.take new_len
  else l ++ List.replicate (new_len - l.length) value

/-- Embeds `RingBuffer::resize(new_size, default_value)`:
`let index = self.get_array_index(0); self.elements.rotate_left(index);
self.elements.resize(new_size, default_value); self.current_index = 0;` -/
def resize (rb : RingBuffer T) (new_size : Nat) (default_value : T) :
    Option (RingBuffer T) :=
  (rb.get_array_index 0).bind (fun index =>
    (rustRotateLeft rb.elements index).map (fun rotated =>
      { elements := vecResize rotated new_size default_value,
        current_index := 0 }))

/-- The sequence produced by `iter()` / `RingBufferIter`: it reads
`&self.ring_buffer[self.index]` for `index = 0, 1, ..., len - 1`.
Each read goes through `Index`, so an element is `none` exactly when that
read would panic. -/
def iterList (rb : RingBuffer T) : List (Option T) :=
  (List.range rb.elements.length).map (fun (i : Nat) => rb.index (i : Int))

/-- The physical slots visited by `RingBufferIterMut`: step `i` computes
`self.ring_buffer.get_array_index(self.index as isize)` for
`index = 0, 1, ..., len - 1`. -/
def iterMutSlots (rb : RingBuffer T) : List (Option Nat) :=
  (List.range rb.elements.length).map
    (fun (i : Nat) => rb.get_array_index (i : Int))

/-- Embeds `buffer.iter_mut().zip(vs).for_each(|(a, b)| *a = *b)`: the mutable
iterator stops at `len`, `zip` stops at the end of `vs`; step `index`
writes through the pointer at physical slot `get_array_index(index)`. -/
def iterMutAssign (rb : RingBuffer T) (index : Nat) (vs : List T) :
    RingBuffer T :=
  match vs with
  | [] => rb
  | v :: rest =>
    if index ≥ rb.elements.length then rb
    else
      match rb.get_array_index (index : Int) with
      | some array_index =>
          iterMutAssign
            { elements := rb.elements.set array_index v,
              current_index := rb.current_index } (index + 1) rest
      | none => rb

end RingBuffer

/-- Modelled from the spec: the physical slot `(rotation_offset + i) mod N`,
computed with Euclidean (always-nonnegative) remainder. -/
def specSlot (o i : Int) (N : Nat) : Nat :=
  ((o + i) % (N : Int)).toNat

/-- A concrete buffer used to instantiate the verified properties:
three elements with an accumulated negative rotation offset. -/
def sampleBuf : RingBuffer Nat :=
  { elements := [1, 2, 3], current_index := -4 }

/-- A concrete zero-capacity buffer. -/
def emptyBuf : RingBuffer Nat :=
  { elements := [], current_index := 5 }

/-! ### Basic facts about the physical slot computation -/

theorem natCast_ne_zero_of_pos {N : Nat} (h : 0 < N) : (N : Int) ≠ 0 := by
  exact_mod_cast Nat.pos_iff_ne_zero.mp h

theorem specSlot_cast (o i : Int) {N : Nat} (h : 0 < N) :
    ((specSlot o i N : Nat) : Int) = (o + i) % (N : Int) := by
  unfold specSlot
  exact Int.toNat_of_nonneg (Int.emod_nonneg _ (natCast_ne_zero_of_pos h))

theorem specSlot_lt (o i : Int) {N : Nat} (h : 0 < N) : specSlot o i N < N := by
  unfold specSlot
  have h1 := Int.emod_nonneg (o + i) (natCast_ne_zero_of_pos h)
  have h2 := Int.emod_lt_of_pos (o + i) (show (0:Int) < N by exact_mod_cast h)
  omega

theorem specSlot_congr (o : Int) {a b : Int} {N : Nat}
    (h : a % (N : Int) = b % (N : Int)) : specSlot o a N = specSlot o b N := by
  unfold specSlot
  rw [Int.add_emod o a, Int.add_emod o b, h]

theorem specSlot_inj (o : Int) {N : Nat} (h : 0 < N) {a b : Nat}
    (ha : a < N) (hb : b < N)
    (hab : specSlot o (a : Int) N = specSlot o (b : Int) N) : a = b := by
  have hc : ((specSlot o (a : Int) N : Nat) : Int) = specSlot o (b : Int) N := by
    exact_mod_cast hab
  rw [specSlot_cast o (a : Int) h, specSlot_cast o (b : Int) h] at hc
  have hmod : (a : Int) ≡ (b : Int) [ZMOD (N : Int)] :=
    Int.ModEq.add_left_cancel' o hc
  have ha2 : (a : Int) % (N : Int) = a :=
    Int.emod_eq_of_lt (by exact_mod_cast Nat.zero_le a) (by exact_mod_cast ha)
  have hb2 : (b : Int) % (N : Int) = b :=
    Int.emod_eq_of_lt (by exact_mod_cast Nat.zero_le b) (by exact_mod_cast hb)
  have : (a : Int) = b := by
    have := hmod
    unfold Int.ModEq at this
    omega
  exact_mod_cast this

namespace RingBuffer

/-! ### Characterisation of the indexing operations -/

theorem get_array_index_eq (rb : RingBuffer T) (i : Int)
    (h : 0 < rb.elements.length) :
    rb.get_array_index i =
      some (specSlot rb.current_index i rb.elements.length) := by
  unfold get_array_index specSlot
  simp only [if_neg (natCast_ne_zero_of_pos h)]

theorem get_array_index_none (rb : RingBuffer T) (i : Int)
    (h : rb.elements.length = 0) : rb.get_array_index i = none := by
  unfold get_array_index
  simp [h]

theorem index_eq_get (rb : RingBuffer T) (i : Int)
    (h : 0 < rb.elements.length) :
    rb.index i =
      rb.elements.get? (specSlot rb.current_index i rb.elements.length) := by
  unfold index
  rw [get_array_index_eq rb i h]
  rfl

theorem index_congr (rb : RingBuffer T) {a b : Int}
    (h : a % (rb.elements.length : Int) = b % (rb.elements.length : Int)) :
    rb.index a = rb.index b := by
  by_cases hN : 0 < rb.elements.length
  · rw [index_eq_get rb a hN, index_eq_get rb b hN,
      specSlot_congr rb.current_index h]
  · unfold index
    rw [get_array_index_none rb a (by omega), get_array_index_none rb b (by omega)]

theorem rotate_index_eq (rb : RingBuffer T) (k i : Int) :
    (rb.rotate k).index i = rb.index (k + i) := by
  unfold rotate index get_array_index
  simp only [add_assoc]

theorem iterList_getElem? (rb : RingBuffer T) (j : Nat) :
    (iterList rb)[j]? =
      if j < rb.elements.length then some (rb.index (j : Int)) else none := by
  unfold iterList
  by_cases hj : j < rb.elements.length
  · rw [List.getElem?_map, List.getElem?_range hj, if_pos hj]
    rfl
  · rw [if_neg hj, List.getElem?_eq_none]
    simp only [List.length_map, List.length_range]
    omega

theorem iterList_length (rb : RingBuffer T) :
    (iterList rb).length = rb.elements.length := by
  unfold iterList
  rw [List.length_map, List.length_range]

theorem iterList_offset_zero (rb : RingBuffer T) (h : rb.current_index = 0) :
    iterList rb = rb.elements.map some := by
  apply List.ext_getElem?
  intro j
  rw [iterList_getElem?, List.getElem?_map]
  by_cases hj : j < rb.elements.length
  · rw [if_pos hj]
    rw [index_eq_get rb (j : Int) (by omega)]
    have hs : specSlot rb.current_index (j : Int) rb.elements.length = j := by
      unfold specSlot
      rw [h, zero_add, Int.emod_eq_of_lt (by exact_mod_cast Nat.zero_le j)
        (by exact_mod_cast hj)]
      exact Int.toNat_natCast j
    rw [hs, List.get?_eq_getElem?]
    rcases List.getElem?_eq_some_iff.2 ⟨hj, rfl⟩ with hx
    cases hget : rb.elements[j]? with
    | none => rw [hget] at hx; cases hx
    | some x => simp [hget]
  · rw [if_neg hj, List.getElem?_eq_none (by omega)]
    rfl

end RingBuffer

namespace RingBuffer

/-! ### The mutable-iterator assignment loop -/

theorem iterMutAssign_cons (rb : RingBuffer T) (idx : Nat) (v : T)
    (rest : List T) (h : idx < rb.elements.length) :
    iterMutAssign rb idx (v :: rest) =
      iterMutAssign
        { elements :=
            rb.elements.set
              (specSlot rb.current_index (idx : Int) rb.elements.length) v,
          current_index := rb.current_index } (idx + 1) rest := by
  simp only [iterMutAssign]
  rw [if_neg (by omega), get_array_index_eq rb (idx : Int) (by omega)]

theorem iterMutAssign_elements_length (vs : List T) (rb : RingBuffer T)
    (idx : Nat) :
    (iterMutAssign rb idx vs).elements.length = rb.elements.length := by
  induction vs generalizing rb idx with
  | nil => rfl
  | cons v rest ih =>
    by_cases hge : idx < rb.elements.length
    · rw [iterMutAssign_cons rb idx v rest hge, ih]
      exact List.length_set rb.elements _ v
    · simp only [iterMutAssign]
      rw [if_pos (by omega)]

theorem index_of_set (rb : RingBuffer T) (s : Nat) (v : T) (k : Int)
    (h : 0 < rb.elements.length) (hs : s < rb.elements.length) :
    (RingBuffer.mk (rb.elements.set s v) rb.current_index).index k =
      if specSlot rb.current_index k rb.elements.length = s then some v
      else rb.index k := by
  have hlen : (rb.elements.set s v).length = rb.elements.length :=
    List.length_set rb.elements s v
  rw [index_eq_get (RingBuffer.mk (rb.elements.set s v) rb.current_index) k
    (by simpa [hlen])]
  rw [index_eq_get rb k h]
  simp only [hlen]
  rw [List.get?_eq_getElem?, List.get?_eq_getElem?, List.getElem?_set]
  by_cases heq : specSlot rb.current_index k rb.elements.length = s
  · rw [if_pos heq, if_pos heq.symm, if_pos hs]
  · rw [if_neg heq, if_neg (fun hc => heq hc.symm)]

theorem iterMutAssign_index_spec (vs : List T) (rb : RingBuffer T) (idx : Nat)
    (h : idx + vs.length ≤ rb.elements.length) (k : Nat)
    (hk : k < rb.elements.length) :
    (iterMutAssign rb idx vs).index (k : Int) =
      if idx ≤ k ∧ k < idx + vs.length then vs.get? (k - idx)
      else rb.index (k : Int) := by
  induction vs generalizing rb idx k with
  | nil =>
    rw [if_neg (by simp)]
    rfl
  | cons v rest ih =>
    have hlen : rest.length + 1 = (v :: rest).length := rfl
    have hidx : idx < rb.elements.length := by
      rw [← hlen] at h
      omega
    rw [iterMutAssign_cons rb idx v rest hidx]
    have hN : 0 < rb.elements.length := by omega
    have hslt : specSlot rb.current_index (idx : Int) rb.elements.length <
        rb.elements.length := specSlot_lt rb.current_index (idx : Int) hN
    have hlen2 :
        (rb.elements.set
          (specSlot rb.current_index (idx : Int) rb.elements.length)
          v).length = rb.elements.length :=
      List.length_set rb.elements _ v
    rw [ih _ (idx + 1) (by rw [hlen2]; rw [← hlen] at h; omega) k
      (by rw [hlen2]; exact hk)]
    by_cases hwin : idx + 1 ≤ k ∧ k < idx + 1 + rest.length
    · rw [if_pos hwin, if_pos (by rw [← hlen]; omega)]
      have hsub : k - idx = (k - (idx + 1)) + 1 := by omega
      rw [hsub, List.get?_cons_succ]
    · rw [if_neg hwin]
      rw [index_of_set rb _ v (k : Int) hN hslt]
      by_cases hki : k = idx
      · subst hki
        rw [if_pos rfl, if_pos (by rw [← hlen]; omega)]
        rw [Nat.sub_self, List.get?_cons_zero]
      · rw [if_neg (fun hc =>
          hki (specSlot_inj rb.current_index hN hk hidx hc))]
        rw [if_neg (by rw [← hlen]; omega)]

theorem vecResize_length (l : List α) (n : Nat) (v : α) :
    (vecResize l n v).length = n := by
  unfold vecResize
  by_cases hc : n ≤ l.length
  · rw [if_pos hc, List.length_take]
    omega
  · rw [if_neg hc, List.length_append, List.length_replicate]
    omega

end RingBuffer

/-! ### Arithmetic of slots under shifts -/

theorem emod_add_congr {N a b : Int} (h : a % N = b % N) (j : Int) :
    (a + j) % N = (b + j) % N := by
  rw [Int.add_emod a j, Int.add_emod b j, h]

theorem emod_sub_self (a : Int) (N : Int) : (a - N) % N = a % N := by
  have hrw : a - N = a + N * (-1) := by ring
  rw [hrw, Int.add_mul_emod_self_left]

theorem specSlot_zero_cast (o : Int) {N : Nat} (h : 0 < N) :
    ((specSlot o 0 N : Nat) : Int) = o % (N : Int) := by
  have hc := specSlot_cast o 0 h
  rw [add_zero] at hc
  exact hc

theorem specSlot_nat (o : Int) {N : Nat} (h : 0 < N) (j : Nat) (hj : j < N) :
    specSlot o (j : Int) N =
      if specSlot o 0 N + j < N then specSlot o 0 N + j
      else specSlot o 0 N + j - N := by
  have hs0 := specSlot_zero_cast o h
  have hs0lt : specSlot o 0 N < N := specSlot_lt o 0 h
  have hjm : (j : Int) % (N : Int) = j :=
    Int.emod_eq_of_lt (by exact_mod_cast Nat.zero_le j) (by exact_mod_cast hj)
  have hsplit : (o + (j : Int)) % (N : Int) =
      (((specSlot o 0 N : Nat) : Int) + j) % (N : Int) := by
    rw [Int.add_emod o (j : Int), hjm, hs0]
  have hcastj := specSlot_cast o (j : Int) h
  by_cases hcase : specSlot o 0 N + j < N
  · rw [if_pos hcase]
    have hval : (((specSlot o 0 N : Nat) : Int) + j) % (N : Int) =
        ((specSlot o 0 N : Nat) : Int) + j :=
      Int.emod_eq_of_lt (by positivity) (by exact_mod_cast hcase)
    omega
  · rw [if_neg hcase]
    have hval : (((specSlot o 0 N : Nat) : Int) + j) % (N : Int) =
        ((specSlot o 0 N : Nat) : Int) + j - N := by
      rw [← emod_sub_self (((specSlot o 0 N : Nat) : Int) + j) (N : Int)]
      exact Int.emod_eq_of_lt (by omega) (by omega)
    omega

theorem map_some_entry (l : List α) (n : Nat) (hn : n < l.length) :
    Option.map some l[n]? = some (l.get? n) := by
  rw [List.getElem?_eq_getElem hn, List.get?_eq_getElem?,
    List.getElem?_eq_getElem hn]
  rfl

namespace RingBuffer

theorem rotate_elements (rb : RingBuffer T) (k : Int) :
    (rb.rotate k).elements = rb.elements := rfl

/-- Reading logical index `j` on a buffer is reading the linearized list
(`drop i0 ++ take i0` at the physical slot of logical 0) at position `j`. -/
theorem iterList_eq_linearized (rb : RingBuffer T)
    (h : 0 < rb.elements.length) :
    iterList rb =
      (rb.elements.drop (specSlot rb.current_index 0 rb.elements.length) ++
       rb.elements.take (specSlot rb.current_index 0 rb.elements.length)).map
        some := by
  have hi0lt : specSlot rb.current_index 0 rb.elements.length <
      rb.elements.length := specSlot_lt rb.current_index 0 h
  apply List.ext_getElem?
  intro j
  rw [iterList_getElem?, List.getElem?_map, List.getElem?_append]
  rw [List.length_drop]
  by_cases hj : j < rb.elements.length
  · rw [if_pos hj, index_eq_get rb (j : Int) h,
      specSlot_nat rb.current_index h j hj]
    by_cases hcase :
        specSlot rb.current_index 0 rb.elements.length + j <
          rb.elements.length
    · rw [if_pos hcase, if_pos (by omega), List.getElem?_drop,
        map_some_entry rb.elements _ (by omega)]
    · rw [if_neg hcase, if_neg (by omega), List.getElem?_take,
        if_pos (by omega),
        map_some_entry rb.elements _ (by omega)]
      have harg : j - (rb.elements.length -
          specSlot rb.current_index 0 rb.elements.length) =
          specSlot rb.current_index 0 rb.elements.length + j -
            rb.elements.length := by
        omega
      rw [harg]
  · rw [if_neg hj, if_neg (by omega), List.getElem?_take, if_neg (by omega)]
    rfl

end RingBuffer

namespace RingBuffer

/-! ### Verified claims -/

/-- C1: for every buffer with capacity `N > 0` and rotation offset `o`,
every indexed read `buffer[i]` and every indexed write `buffer[i] = v`
(for any integer index `i`) accesses exactly the physical storage slot
`(o + i) mod N`, computed with Euclidean (always-nonnegative) remainder. -/
theorem index_maps_to_euclid_slot (rb : RingBuffer T) (i : Int) (v : T)
    (h : 0 < rb.elements.length) :
    rb.get_array_index i =
      some (specSlot rb.current_index i rb.elements.length) ∧
    rb.index i =
      rb.elements.get? (specSlot rb.current_index i rb.elements.length) ∧
    rb.index_set i v =
      some { elements :=
               rb.elements.set
                 (specSlot rb.current_index i rb.elements.length) v,
             current_index := rb.current_index } := by
  refine ⟨get_array_index_eq rb i h, index_eq_get rb i h, ?_⟩
  unfold index_set
  rw [get_array_index_eq rb i h]
  simp only [Option.some_bind]
  rw [if_pos (specSlot_lt rb.current_index i h)]

/-- Witness for C1 at `sampleBuf`, `i = -7`, `v = 9`. -/
theorem index_maps_to_euclid_slot_witness :
    0 < sampleBuf.elements.length ∧
    (sampleBuf.get_array_index (-7) =
       some (specSlot sampleBuf.current_index (-7) sampleBuf.elements.length) ∧
     sampleBuf.index (-7) =
       sampleBuf.elements.get?
         (specSlot sampleBuf.current_index (-7) sampleBuf.elements.length) ∧
     sampleBuf.index_set (-7) 9 =
       some { elements :=
                sampleBuf.elements.set
                  (specSlot sampleBuf.current_index (-7)
                    sampleBuf.elements.length) 9,
              current_index := sampleBuf.current_index }) :=
  ⟨by decide, index_maps_to_euclid_slot sampleBuf (-7) 9 (by decide)⟩

/-- C4: periodicity of indexing: for every buffer of capacity `N > 0` and
every integer `i`, `buffer[i] == buffer[i + N]` and
`buffer[i] == buffer[i - N]`. -/
theorem index_periodic (rb : RingBuffer T) (i : Int)
    (h : 0 < rb.elements.length) :
    rb.index i = rb.index (i + (rb.elements.length : Int)) ∧
    rb.index i = rb.index (i - (rb.elements.length : Int)) := by
  constructor
  · apply index_congr
    have hrw : i + (rb.elements.length : Int) =
        i + (rb.elements.length : Int) * 1 := by ring
    rw [hrw, Int.add_mul_emod_self_left]
  · apply index_congr
    rw [emod_sub_self]

/-- Witness for C4 at `sampleBuf`, `i = -7`. -/
theorem index_periodic_witness :
    0 < sampleBuf.elements.length ∧
    (sampleBuf.index (-7) =
       sampleBuf.index (-7 + (sampleBuf.elements.length : Int)) ∧
     sampleBuf.index (-7) =
       sampleBuf.index (-7 - (sampleBuf.elements.length : Int))) :=
  ⟨by decide, index_periodic sampleBuf (-7) (by decide)⟩

/-- C5: on a zero-capacity buffer, every indexed read and every indexed
write fails fast (returns `none`, the model of the `rem_euclid`-by-zero
panic); no indexed access returns normally. -/
theorem empty_buffer_index_fails (rb : RingBuffer T) (i : Int) (v : T)
    (h : rb.elements.length = 0) :
    rb.index i = none ∧ rb.index_set i v = none := by
  unfold index index_set
  rw [get_array_index_none rb i h]
  exact ⟨rfl, rfl⟩

/-- Witness for C5 at `emptyBuf`, `i = 3`, `v = 9`. -/
theorem empty_buffer_index_fails_witness :
    emptyBuf.elements.length = 0 ∧
    (emptyBuf.index 3 = none ∧ emptyBuf.index_set 3 9 = none) :=
  ⟨by decide, empty_buffer_index_fails emptyBuf 3 9 (by decide)⟩

/-- C6: `new(N, v)` produces a buffer with `len() == N`, rotation offset 0,
and `iter()` yielding exactly `N` copies of `v` (empty when `N = 0`). -/
theorem new_fill_correct (N : Nat) (v : T) :
    (new N v).len = N ∧ (new N v).current_index = 0 ∧
    iterList (new N v) = List.replicate N (some v) := by
  refine ⟨?_, rfl, ?_⟩
  · unfold new len
    exact List.length_replicate N v
  · rw [iterList_offset_zero (new N v) rfl]
    unfold new
    exact List.map_replicate

/-- C7: negative indexing: for every buffer of capacity `N > 0`,
`buffer[-1]` returns the same element as `buffer[N - 1]`. -/
theorem negative_one_index (rb : RingBuffer T)
    (h : 0 < rb.elements.length) :
    rb.index (-1) = rb.index ((rb.elements.length : Int) - 1) := by
  apply index_congr
  have hrw : (rb.elements.length : Int) - 1 =
      -1 + (rb.elements.length : Int) * 1 := by ring
  rw [hrw, Int.add_mul_emod_self_left]

/-- Witness for C7 at `sampleBuf`. -/
theorem negative_one_index_witness :
    0 < sampleBuf.elements.length ∧
    sampleBuf.index (-1) =
      sampleBuf.index ((sampleBuf.elements.length : Int) - 1) :=
  ⟨by decide, negative_one_index sampleBuf (by decide)⟩

/-- C8: frame property of `rotate`: `rotate(delta)` adds `delta` to the
rotation offset and changes nothing else — the length and the underlying
physical storage sequence are unchanged. -/
theorem rotate_frame (rb : RingBuffer T) (delta : Int) :
    (rb.rotate delta).current_index = rb.current_index + delta ∧
    (rb.rotate delta).elements = rb.elements ∧
    (rb.rotate delta).len = rb.len :=
  ⟨rfl, rfl, rfl⟩

/-- C10: `resize` on a zero-capacity buffer always fails fast: the
remainder-by-zero happens while computing the linearization point
(`get_array_index(0)`), before the storage is touched, for every
`new_size` and default value. -/
theorem resize_empty_fails (rb : RingBuffer T) (new_size : Nat) (v : T)
    (h : rb.elements.length = 0) :
    rb.get_array_index 0 = none ∧ rb.resize new_size v = none := by
  refine ⟨get_array_index_none rb 0 h, ?_⟩
  unfold resize
  rw [get_array_index_none rb 0 h]
  rfl

/-- Witness for C10 at `emptyBuf`, `new_size = 4`, `v = 7`. -/
theorem resize_empty_fails_witness :
    emptyBuf.elements.length = 0 ∧
    (emptyBuf.get_array_index 0 = none ∧ emptyBuf.resize 4 7 = none) :=
  ⟨by decide, resize_empty_fails emptyBuf 4 7 (by decide)⟩

end RingBuffer

namespace RingBuffer

/-- C3: for every buffer of capacity `N > 0` whose logical contents are
the sequence produced by `iter()`, after `rotate(k)` for any integer `k`,
`iter()` produces the left rotation of the previous logical sequence by
`k mod N` (Euclidean modulus). -/
theorem rotate_iter_is_left_rotation (rb : RingBuffer T) (k : Int)
    (h : 0 < rb.elements.length) :
    iterList (rb.rotate k) =
      (iterList rb).drop ((k % (rb.elements.length : Int)).toNat) ++
      (iterList rb).take ((k % (rb.elements.length : Int)).toNat) := by
  have hNZ : (rb.elements.length : Int) ≠ 0 := natCast_ne_zero_of_pos h
  have hm0 : 0 ≤ k % (rb.elements.length : Int) := Int.emod_nonneg k hNZ
  have hmlt : k % (rb.elements.length : Int) < rb.elements.length :=
    Int.emod_lt_of_pos k (by exact_mod_cast h)
  have hmcast : (((k % (rb.elements.length : Int)).toNat : Nat) : Int) =
      k % (rb.elements.length : Int) := Int.toNat_of_nonneg hm0
  have hkk : k % (rb.elements.length : Int) =
      (k % (rb.elements.length : Int)) % (rb.elements.length : Int) :=
    (Int.emod_emod_of_dvd k dvd_rfl).symm
  set m : Nat := (k % (rb.elements.length : Int)).toNat with hmdef
  have hmN : m < rb.elements.length := by omega
  have hAlen : (iterList rb).length = rb.elements.length := iterList_length rb
  apply List.ext_getElem?
  intro j
  rw [iterList_getElem? (rb.rotate k) j, rotate_elements rb k,
    List.getElem?_append, List.length_drop, hAlen, List.getElem?_drop,
    List.getElem?_take]
  by_cases hj : j < rb.elements.length
  · rw [if_pos hj, rotate_index_eq rb k (j : Int)]
    by_cases hj2 : j < rb.elements.length - m
    · rw [if_pos hj2, iterList_getElem? rb (m + j), if_pos (by omega)]
      apply congrArg some
      apply index_congr
      have hc : ((m + j : Nat) : Int) = (m : Int) + j := by push_cast; ring
      rw [hc, hmcast]
      exact emod_add_congr hkk (j : Int)
    · rw [if_neg hj2, if_pos (by omega),
        iterList_getElem? rb (j - (rb.elements.length - m)),
        if_pos (by omega)]
      apply congrArg some
      apply index_congr
      have hc : ((j - (rb.elements.length - m) : Nat) : Int) =
          (j : Int) + m - rb.elements.length := by omega
      rw [hc, emod_sub_self ((j : Int) + m) (rb.elements.length : Int),
        add_comm (j : Int) (m : Int), hmcast]
      exact emod_add_congr hkk (j : Int)
  · rw [if_neg hj, if_neg (by omega), if_neg (by omega)]

/-- Witness for C3 at `sampleBuf`, `k = -5`. -/
theorem rotate_iter_is_left_rotation_witness :
    0 < sampleBuf.elements.length ∧
    iterList (sampleBuf.rotate (-5)) =
      (iterList sampleBuf).drop
        (((-5 : Int) % (sampleBuf.elements.length : Int)).toNat) ++
      (iterList sampleBuf).take
        (((-5 : Int) % (sampleBuf.elements.length : Int)).toNat) :=
  ⟨by decide, rotate_iter_is_left_rotation sampleBuf (-5) (by decide)⟩

end RingBuffer

namespace RingBuffer

/-- C9: the mutable iterator visits each of the `N` physical slots exactly
once (the visited-slot sequence has no duplicates), in increasing logical
order; consequently assigning through `iter_mut()` zipped with a sequence
`vs` of length `N` updates each logical position `i` to `vs[i]`, and a
subsequent `iter()` produces exactly `vs`. -/
theorem iter_mut_assign_determinism (rb : RingBuffer T) (vs : List T)
    (h : vs.length = rb.elements.length) :
    (iterMutSlots rb).Nodup ∧
    iterList (iterMutAssign rb 0 vs) = vs.map some := by
  constructor
  · unfold iterMutSlots
    by_cases hN : 0 < rb.elements.length
    · apply List.Nodup.map_on _ (List.nodup_range rb.elements.length)
      intro x hx y hy hxy
      rw [List.mem_range] at hx hy
      rw [get_array_index_eq rb _ hN, get_array_index_eq rb _ hN] at hxy
      exact specSlot_inj rb.current_index hN hx hy (Option.some.inj hxy)
    · have hz : rb.elements.length = 0 := by omega
      rw [hz]
      exact List.Pairwise.nil.map _ (fun a b hab => hab)
  · apply List.ext_getElem?
    intro j
    have hlen2 :
        (iterMutAssign rb 0 vs).elements.length = rb.elements.length :=
      iterMutAssign_elements_length vs rb 0
    rw [iterList_getElem?, hlen2, List.getElem?_map]
    by_cases hj : j < rb.elements.length
    · rw [if_pos hj, iterMutAssign_index_spec vs rb 0 (by omega) j hj,
        if_pos ⟨Nat.zero_le j, by omega⟩, Nat.sub_zero]
      exact (map_some_entry vs j (by omega)).symm
    · rw [if_neg hj, List.getElem?_eq_none (show vs.length ≤ j by omega)]
      rfl

/-- Witness for C9 at `sampleBuf` with the assigned sequence `[7, 8, 9]`. -/
theorem iter_mut_assign_determinism_witness :
    ([7, 8, 9] : List Nat).length = sampleBuf.elements.length ∧
    ((iterMutSlots sampleBuf).Nodup ∧
     iterList (iterMutAssign sampleBuf 0 [7, 8, 9]) =
       ([7, 8, 9] : List Nat).map some) :=
  ⟨by decide, iter_mut_assign_determinism sampleBuf [7, 8, 9] (by decide)⟩

end RingBuffer

namespace RingBuffer

/-- C2 as stated ("for every buffer") fails at capacity 0: growing
`RingBuffer(0, _)` via `resize(1, 7)` does not produce the one-element
buffer holding `7` with offset 0 that the claim describes — the call
fails fast (remainder by zero in `get_array_index(0)`) instead. -/
theorem resize_zero_capacity_counterexample :
    (new 0 (0 : Nat)).resize 1 7 = none ∧
    (new 0 (0 : Nat)).resize 1 7 ≠ some (new 1 7) := by
  decide

/-- C2 (amended to buffers of positive capacity): for every buffer with
capacity `N > 0`, `resize(new_size, default_value)` succeeds; it resets
the rotation offset to 0; the result has length `new_size`; the new
logical contents are the old linearized logical contents with
`new_size - len()` copies of `default_value` appended when growing
(`new_size ≥ len()`) and truncated to the first `new_size` elements when
shrinking; and, when `new_size > 0`, logical index 0 afterwards reads
physical index 0 and holds whatever was at logical index 0 immediately
before the call. -/
theorem resize_spec (rb : RingBuffer T) (new_size : Nat) (v : T)
    (h : 0 < rb.elements.length) :
    ∃ rb2 : RingBuffer T, rb.resize new_size v = some rb2 ∧
      rb2.current_index = 0 ∧
      rb2.elements.length = new_size ∧
      iterList rb2 =
        (if rb.elements.length ≤ new_size
         then iterList rb ++
              List.replicate (new_size - rb.elements.length) (some v)
         else (iterList rb).take new_size) ∧
      (0 < new_size →
        rb2.index 0 = rb2.elements.get? 0 ∧ rb2.index 0 = rb.index 0) := by
  have hi0 : specSlot rb.current_index 0 rb.elements.length <
      rb.elements.length := specSlot_lt rb.current_index 0 h
  set i0 := specSlot rb.current_index 0 rb.elements.length with hi0def
  set R : List T := rb.elements.drop i0 ++ rb.elements.take i0 with hRdef
  have hRlen : R.length = rb.elements.length := by
    rw [hRdef, List.length_append, List.length_drop, List.length_take]
    omega
  set rb2 : RingBuffer T :=
    { elements := vecResize R new_size v, current_index := 0 } with hrb2def
  have hres : rb.resize new_size v = some rb2 := by
    unfold resize
    rw [get_array_index_eq rb 0 h]
    simp only [Option.some_bind]
    unfold rustRotateLeft
    rw [if_pos (show i0 ≤ rb.elements.length by omega)]
    rfl
  have hlen2 : rb2.elements.length = new_size := vecResize_length R new_size v
  have hlin : iterList rb = R.map some := iterList_eq_linearized rb h
  have hiter : iterList rb2 =
      (if rb.elements.length ≤ new_size
       then iterList rb ++
            List.replicate (new_size - rb.elements.length) (some v)
       else (iterList rb).take new_size) := by
    rw [iterList_offset_zero rb2 rfl, hlin]
    show (vecResize R new_size v).map some = _
    unfold vecResize
    by_cases hc : new_size ≤ R.length
    · rw [if_pos hc]
      by_cases hc2 : rb.elements.length ≤ new_size
      · have heq : new_size = R.length := by omega
        have hz : new_size - rb.elements.length = 0 := by omega
        rw [if_pos hc2, hz, List.replicate_zero, List.append_nil, heq,
          List.take_length]
      · rw [if_neg hc2, List.map_take]
    · rw [if_neg hc, if_pos (by omega), List.map_append, List.map_replicate,
        hRlen]
  refine ⟨rb2, hres, rfl, hlen2, hiter, ?_⟩
  intro hpos
  have hpos2 : 0 < rb2.elements.length := by omega
  constructor
  · rw [index_eq_get rb2 0 hpos2]
    have hslot : specSlot rb2.current_index 0 rb2.elements.length = 0 := by
      show specSlot 0 0 rb2.elements.length = 0
      unfold specSlot
      rw [add_zero, Int.zero_emod]
      rfl
    rw [hslot]
  · have h20 : (iterList rb2)[0]? = some (rb2.index 0) := by
      rw [iterList_getElem?, if_pos hpos2, Nat.cast_zero]
    have h10 : (iterList rb)[0]? = some (rb.index 0) := by
      rw [iterList_getElem?, if_pos h, Nat.cast_zero]
    have hrhs :
        (if rb.elements.length ≤ new_size
         then iterList rb ++
              List.replicate (new_size - rb.elements.length) (some v)
         else (iterList rb).take new_size)[0]? = some (rb.index 0) := by
      by_cases hc2 : rb.elements.length ≤ new_size
      · rw [if_pos hc2, List.getElem?_append,
          if_pos (show 0 < (iterList rb).length by rw [iterList_length]; omega),
          h10]
      · rw [if_neg hc2, List.getElem?_take, if_pos hpos, h10]
    rw [hiter, hrhs] at h20
    exact Option.some.inj h20.symm

/-- Witness for C2 (amended) at `sampleBuf`, growing to 5 slots of `7`. -/
theorem resize_spec_witness :
    0 < sampleBuf.elements.length ∧
    (∃ rb2 : RingBuffer Nat, sampleBuf.resize 5 7 = some rb2 ∧
      rb2.current_index = 0 ∧
      rb2.elements.length = 5 ∧
      iterList rb2 =
        (if sampleBuf.elements.length ≤ 5
         then iterList sampleBuf ++
              List.replicate (5 - sampleBuf.elements.length) (some 7)
         else (iterList sampleBuf).take 5) ∧
      (0 < 5 →
        rb2.index 0 = rb2.elements.get? 0 ∧
        rb2.index 0 = sampleBuf.index 0)) :=
  ⟨by decide, resize_spec sampleBuf 5 7 (by decide)⟩

end RingBuffer
